import Mathlib

/-!
Verification of the ipcanvas repository (Rust) via a shallow embedding in Lean 4.

Machine bytes (u8) are modelled as `Nat` values, with `< 256` bounds carried as
hypotheses where a property depends on them; u16 values likewise.  Rust slices
and `Vec`s are modelled as `List Nat`; fallible Rust functions returning
`Result<T, E>` are modelled as `Except E T`; `&mut self` methods are modelled
as functions returning the updated state together with the `Result`.

Sources embedded here:
- `crates/ipcanvas-ping-common/src/events.rs`   (PingEvent)
- `crates/ipcanvas-ping-common/src/prefix.rs`   (Ipv6Prefix, matches)
- `crates/ipcanvas-service/src/events.rs`       (Event, PixelColor)
- `crates/ipcanvas-service/src/ping/server.rs`  (PingServer)
- `crates/ipcanvas-service/src/canvas/mod.rs`   (Canvas)
- `crates/ipcanvas-service/src/canvas/diff.rs`  (CanvasDiff)
- `crates/ipcanvas-service/src/main.rs`         (canvas_task)
- `crates/ipcanvas-ping-ebpf/src/lib.rs`        (ptr_at)
- `crates/ipcanvas-ping-ebpf/src/main.rs`       (packet classifier)

The repository contains two variants of `PingServer` (`ping/mod.rs` and
`ping/server.rs`).  The `server.rs` variant is the one embedded: it is the
only one that defines `ready_events`, which `main.rs` calls, and the only one
consistent with the repository test suite (`ping/tests.rs` calls
`PingServer::handle_ping_event`, which only `server.rs` defines, and expects
pixel colors decoded from the destination address as `server.rs` does).
-/

namespace IpCanvas

/-- RGB pixel color (`PixelColor` in `ipcanvas-service/src/events.rs`). -/
structure PixelColor where
  r : Nat
  g : Nat
  b : Nat
deriving DecidableEq, Repr

/-- Canvas events (`Event` in `ipcanvas-service/src/events.rs`). -/
inductive Event where
  | PlacePixel (x y : Nat) (color : PixelColor)
  | PlaceLabel (x y : Nat) (text : List Nat)
deriving DecidableEq, Repr

/-- The slice `l[i..j]` of a byte buffer (Rust range-indexing on slices). -/
def slice (l : List Nat) (i j : Nat) : List Nat :=
  (l.drop i).take (j - i)

/-- `u16::from_be_bytes` on a 2-byte slice: big-endian 16-bit decode. -/
def u16_from_be_bytes (l : List Nat) : Nat :=
  256 * l.getD 0 0 + l.getD 1 0

/-- `PingEvent` (`ipcanvas-ping-common/src/events.rs`): a 32-byte record of
source and destination IPv6 addresses, 16 bytes each. -/
structure PingEvent where
  source_address : List Nat
  destination_address : List Nat
deriving DecidableEq, Repr

/-- `PingEvent::new`. -/
def PingEvent.new (source destination : List Nat) : PingEvent :=
  { source_address := source, destination_address := destination }

/-- `PingEvent::as_bytes`: the `repr(C)` byte image, source address first. -/
def PingEvent.as_bytes (e : PingEvent) : List Nat :=
  e.source_address ++ e.destination_address

/-- `PingEvent::from_bytes`: source from bytes `[0..16]`, destination from
bytes `[16..32]`. -/
def PingEvent.from_bytes (bytes : List Nat) : PingEvent :=
  { source_address := bytes.take 16, destination_address := bytes.drop 16 }

/-- `Ipv6Prefix` (`ipcanvas-ping-common/src/prefix.rs`): 16 address bytes plus
a prefix length. -/
structure Ipv6Prefix where
  address : List Nat
  prefix_len : Nat
deriving DecidableEq, Repr

/-- `Ipv6Prefix::matches` (`prefix.rs` lines 75-102).  The Rust early-return
loop over the 16 octets is rendered as `List.all` over `List.range 16`; the
u8 expression `0xFF << (8 - remaining_bits)` wraps modulo 256. -/
def Ipv6Prefix.matches (p : Ipv6Prefix) (addr : List Nat) : Bool :=
  let addr_bytes := addr
  let full_bytes := p.prefix_len / 8
  let remaining_bits := p.prefix_len - full_bytes * 8
  let fullMatch := (List.range 16).all fun k =>
    decide (full_bytes ≤ k) || decide (addr_bytes.getD k 0 = p.address.getD k 0)
  let remaining_match :=
    if remaining_bits > 0 ∧ full_bytes < 16 then
      let mask := (0xFF <<< (8 - remaining_bits)) % 256
      let masked_addr_byte := (p.address.getD full_bytes 0) &&& mask
      let masked_prefix_byte := (addr_bytes.getD full_bytes 0) &&& mask
      decide (masked_addr_byte = masked_prefix_byte)
    else true
  fullMatch && remaining_match

/-- Bit `i` of a 16-byte address in network bit order: bit 0 is the most
significant bit of byte 0.  This is the spec-side notion used to state what
`matches` computes. -/
def bitOf (bytes : List Nat) (i : Nat) : Bool :=
  Nat.testBit (bytes.getD (i / 8) 0) (7 - i % 8)

/-- The first `L` bits of two addresses agree (spec-side notion). -/
def firstBitsEq (L : Nat) (pa a : List Nat) : Prop :=
  ∀ i, i < L → bitOf pa i = bitOf a i

/-- `PingServerError` (`ping/server.rs`). -/
inductive PingServerError where
  | IngestFull (read : Nat)
  | IngestEmpty
  | EgressFull
  | Unknown
deriving DecidableEq, Repr

/-- `PingServer` (`ping/server.rs`).  The Rust struct holds two `Vec`s whose
capacities are fixed at construction; here the buffers are lists and the
capacities explicit fields (`ingestBuf`/`egressBuf` name the `ingest`/`egress`
fields of the Rust struct, renamed because the methods of the same names are
also modelled). -/
structure PingServer where
  ingest_capacity : Nat
  egress_capacity : Nat
  ingestBuf : List Nat
  egressBuf : List Event
deriving DecidableEq, Repr

/-- `PingServer::new`. -/
def PingServer.new (ingest_capacity egress_capacity : Nat) : PingServer :=
  { ingest_capacity := ingest_capacity, egress_capacity := egress_capacity,
    ingestBuf := [], egressBuf := [] }

/-- `PingServer::ingest` (`ping/server.rs` lines 66-77): copy as many bytes as
fit, report `IngestFull` with the number copied when not all fit. -/
def PingServer.ingest (s : PingServer) (data : List Nat) :
    PingServer × Except PingServerError Unit :=
  let available_space := s.ingest_capacity - s.ingestBuf.length
  let to_read := min available_space data.length
  let s' := { s with ingestBuf := s.ingestBuf ++ data.take to_read }
  if to_read < data.length then
    (s', .error (.IngestFull to_read))
  else
    (s', .ok ())

/-- `PingServer::handle_ping_event` (`ping/server.rs` lines 83-107): decode one
`PlacePixel` event from a `PingEvent`. -/
def PingServer.handle_ping_event (ping_event : PingEvent) : List Event :=
  let event := Event.PlacePixel
    (u16_from_be_bytes (slice ping_event.destination_address 6 8))
    (u16_from_be_bytes (slice ping_event.destination_address 8 10))
    { r := ping_event.destination_address.getD 11 0,
      g := ping_event.destination_address.getD 13 0,
      b := ping_event.destination_address.getD 15 0 }
  [event]

/-- The record-processing loop inside `PingServer::progress` (`ping/server.rs`
lines 119-140): starting from `offset` and an egress buffer, parse 32-byte
records while they fit and the egress buffer can take the decoded events.
Returns the final offset, the final egress buffer, and the
`flag_egress_full` flag. -/
def PingServer.progressLoop (s : PingServer) (offset : Nat) (egress : List Event) :
    Nat × List Event × Bool :=
  if _h : offset + 32 ≤ s.ingestBuf.length then
    let buf := slice s.ingestBuf offset (offset + 32)
    let events := PingServer.handle_ping_event (PingEvent.from_bytes buf)
    if egress.length + events.length > s.egress_capacity then
      (offset, egress, true)
    else
      PingServer.progressLoop s (offset + 32) (egress ++ events)
  else
    (offset, egress, false)
termination_by s.ingestBuf.length - offset
decreasing_by
  omega

/-- `PingServer::progress` (`ping/server.rs` lines 110-151). -/
def PingServer.progress (s : PingServer) : PingServer × Except PingServerError Unit :=
  if s.ingestBuf.length < 32 then
    (s, .error .IngestEmpty)
  else
    let r := PingServer.progressLoop s 0 s.egressBuf
    let s' := { s with ingestBuf := s.ingestBuf.drop r.1, egressBuf := r.2.1 }
    if r.2.2 then (s', .error .EgressFull) else (s', .ok ())

/-- `PingServer::egress` (`ping/server.rs` lines 154-158): remove and return up
to `max_events` events from the front of the egress buffer. -/
def PingServer.egress (s : PingServer) (max_events : Nat) :
    List Event × PingServer :=
  let to_egress := min s.egressBuf.length max_events
  (s.egressBuf.take to_egress, { s with egressBuf := s.egressBuf.drop to_egress })

/-- `PingServer::ready_events`. -/
def PingServer.ready_events (s : PingServer) : Nat :=
  s.egressBuf.length

/-- `colors::WHITE` (`canvas/mod.rs`). -/
def WHITE : PixelColor := { r := 255, g := 255, b := 255 }

/-- `Pixel` (`canvas/mod.rs`). -/
structure Pixel where
  x : Nat
  y : Nat
  color : PixelColor
deriving DecidableEq, Repr

/-- `Canvas` (`canvas/mod.rs`): row-major pixel data, cell `(x, y)` at index
`y * width + x`. -/
structure Canvas where
  width : Nat
  height : Nat
  data : List PixelColor
deriving DecidableEq, Repr

/-- `Canvas::new`: all cells initialized to white. -/
def Canvas.new (width height : Nat) : Canvas :=
  { width := width, height := height,
    data := List.replicate (width * height) WHITE }

/-- `Canvas::get_pixel` (`canvas/mod.rs` lines 75-81).  The Rust code indexes
`self.data[index]` under the length invariant `data.length = width * height`;
`getD` renders that total access. -/
def Canvas.get_pixel (c : Canvas) (x y : Nat) : Option PixelColor :=
  if x ≥ c.width ∨ y ≥ c.height then none
  else some (c.data.getD (y * c.width + x) WHITE)

/-- `Canvas::set_pixel` (`canvas/mod.rs` lines 86-93): `Err` on out-of-bounds
coordinates, otherwise overwrite the cell.  The `&mut self` update is modelled
by returning the (possibly unchanged) canvas together with the `Result`. -/
def Canvas.set_pixel (c : Canvas) (x y : Nat) (color : PixelColor) :
    Canvas × Except Unit Unit :=
  if x ≥ c.width ∨ y ≥ c.height then (c, .error ())
  else ({ c with data := c.data.set (y * c.width + x) color }, .ok ())

/-- `CanvasDiff` (`canvas/diff.rs`). -/
structure CanvasDiff where
  changed_pixels : List Pixel
deriving DecidableEq, Repr

/-- `CanvasDiff::is_empty`. -/
def CanvasDiff.is_empty (d : CanvasDiff) : Bool :=
  d.changed_pixels.isEmpty

/-- `Canvas::diff` (`canvas/diff.rs` lines 29-46): scan `y` outer and `x`
inner over the dimensions of `self`, pushing the value of `other` at every
cell where the two `get_pixel` results differ and `other` has a value there. -/
def Canvas.diff (c : Canvas) (other : Canvas) : CanvasDiff :=
  { changed_pixels :=
      (List.range c.height).flatMap fun y =>
        (List.range c.width).filterMap fun x =>
          let color_self := c.get_pixel x y
          let color_other := other.get_pixel x y
          if color_self ≠ color_other then
            color_other.map fun color => { x := x, y := y, color := color }
          else
            none }

/-! ## The canvas task (`main.rs` lines 323-389)

`canvas_task` is an async loop driven by two inputs: canvas events arriving on
a channel, and timer ticks (fired only while `change_flag` is set).  It is
modelled as a state machine over an explicit input trace; channel closure is
the end of the trace, after which the final diff is sent unconditionally.
Only `PlacePixel` events are modelled: the other variants hit `todo!()` /
`unimplemented!()` in the source. -/

/-- One input to the canvas task: a received `PlacePixel` event, or a timer
tick (the `interval.tick()` branch, which is guarded by `change_flag`). -/
inductive CanvasInput where
  | place (x y : Nat) (color : PixelColor)
  | tick
deriving DecidableEq, Repr

/-- State of the canvas task: the last published snapshot `prev_canvas`, the
shared canvas, and `change_flag`. -/
structure CanvasTaskState where
  prev_canvas : Canvas
  canvas : Canvas
  change_flag : Bool
deriving DecidableEq, Repr

/-- One loop iteration of `canvas_task`: returns the new state and the diff
published during this iteration, if any. -/
def canvasTaskStep (st : CanvasTaskState) (inp : CanvasInput) :
    CanvasTaskState × Option CanvasDiff :=
  match inp with
  | .place x y color =>
      let canvas' := (st.canvas.set_pixel x y color).1
      ({ st with canvas := canvas', change_flag := true }, none)
  | .tick =>
      if st.change_flag then
        let diff := st.prev_canvas.diff st.canvas
        if diff.is_empty then
          (st, none)
        else
          ({ st with prev_canvas := st.canvas, change_flag := false }, some diff)
      else
        (st, none)

/-- Run the `canvas_task` loop over an input trace, collecting the published
diffs in order; the state when the trace ends (channel closed) is returned. -/
def canvasTaskRun (st : CanvasTaskState) : List CanvasInput → List CanvasDiff × CanvasTaskState
  | [] => ([], st)
  | inp :: rest =>
      let (st', d) := canvasTaskStep st inp
      let (ds, stFin) := canvasTaskRun st' rest
      (d.toList ++ ds, stFin)

/-- The whole `canvas_task`: start from a canvas, with `prev_canvas` a clone of
it and `change_flag` clear; run the loop over the trace; on channel closure
compute `prev_canvas.diff(canvas)` and send it (unconditionally).  Returns the
diffs published by the loop and the final diff. -/
def canvas_task (init : Canvas) (inputs : List CanvasInput) :
    List CanvasDiff × CanvasDiff :=
  let st0 : CanvasTaskState :=
    { prev_canvas := init, canvas := init, change_flag := false }
  let (ds, stFin) := canvasTaskRun st0 inputs
  (ds, stFin.prev_canvas.diff stFin.canvas)

/-! ## The packet classifier (`ipcanvas-ping-ebpf`)

A packet is a list of bytes; the verifier-checked pointers `ctx.data()` /
`ctx.data_end()` delimit exactly this list, so `ptr_at` becomes a bounds check
against the list length.  Header layouts come from the `network_types` crate:
`EthHdr` is 14 bytes with the EtherType at offset 12 (big-endian, IPv6 =
0x86DD); `Ipv6Hdr` is 40 bytes with `next_hdr` at offset 6 (ICMPv6 = 58),
`src_addr` at offset 8 and `dst_addr` at offset 24; `IcmpV6Hdr` is 4 bytes
with `type_` at offset 0 (Echo Request = 128).  The XDP action constants are
`XDP_ABORTED = 0`, `XDP_DROP = 1`, `XDP_PASS = 2`.  The PREFIX map lookup is
an `Option Ipv6Prefix` argument and the ring-buffer `output` result a `Bool`
argument (`true` when the event is accepted). -/

def XDP_ABORTED : Nat := 0

def XDP_DROP : Nat := 1

def XDP_PASS : Nat := 2

def EthHdr.LEN : Nat := 14

def Ipv6Hdr.LEN : Nat := 40

def IcmpV6Hdr.LEN : Nat := 4

/-- `ptr_at` (`ipcanvas-ping-ebpf/src/lib.rs` lines 16-26): fail iff
`start + offset + size_of T` runs past `data_end`; otherwise return the
offset of the value. -/
def ptr_at (pkt : List Nat) (offset size : Nat) : Except Unit Nat :=
  if pkt.length < offset + size then .error () else .ok offset

/-- `try_ipv6` (`ipcanvas-ping-ebpf/src/main.rs` lines 94-100).  The Rust `?`
operator on `ptr_at` is the explicit propagation of the error case. -/
def try_ipv6 (pkt : List Nat) : Except Unit Unit :=
  match ptr_at pkt 0 EthHdr.LEN with
  | .error e => .error e
  | .ok _ =>
      if 256 * pkt.getD 12 0 + pkt.getD 13 0 = 0x86DD then .ok () else .error ()

/-- `try_icmp_echo_request` (`ipcanvas-ping-ebpf/src/main.rs` lines 102-113). -/
def try_icmp_echo_request (pkt : List Nat) (offset : Nat) : Except Unit Unit :=
  match ptr_at pkt offset Ipv6Hdr.LEN with
  | .error e => .error e
  | .ok _ =>
      if pkt.getD (offset + 6) 0 = 58 then
        match ptr_at pkt (offset + Ipv6Hdr.LEN) IcmpV6Hdr.LEN with
        | .error e => .error e
        | .ok _ =>
            if pkt.getD (offset + Ipv6Hdr.LEN) 0 = 128 then .ok () else .error ()
      else
        .error ()

/-- `extract_ipv6_addresses` (`ipcanvas-ping-ebpf/src/main.rs` lines 115-123). -/
def extract_ipv6_addresses (pkt : List Nat) (offset : Nat) :
    Except Unit (List Nat × List Nat) :=
  match ptr_at pkt offset Ipv6Hdr.LEN with
  | .error e => .error e
  | .ok _ =>
      .ok (slice pkt (offset + 8) (offset + 24), slice pkt (offset + 24) (offset + 40))

/-- `ipcanvas_ping` (`ipcanvas-ping-ebpf/src/main.rs` lines 36-92): the XDP
classifier entry point. -/
def ipcanvas_ping (pkt : List Nat) (prefixMap : Option Ipv6Prefix)
    (ring_accepts : Bool) : Nat :=
  match try_ipv6 pkt with
  | .error _ => XDP_PASS
  | .ok _ =>
    let ipv6_offset := EthHdr.LEN
    match try_icmp_echo_request pkt ipv6_offset with
    | .error _ => XDP_PASS
    | .ok _ =>
      match extract_ipv6_addresses pkt ipv6_offset with
      | .error _ => XDP_PASS
      | .ok (_source_addr, dest_addr) =>
        match prefixMap with
        | none => XDP_ABORTED
        | some pfx =>
          if ¬ pfx.matches dest_addr then XDP_PASS
          else if ring_accepts then XDP_PASS else XDP_DROP

/-! ## Reference stream decoding and the drive-to-completion loop

These definitions state the reference semantics against which the `PingServer`
pipeline is compared (spec section 8): decode the byte stream as consecutive
32-byte records, and drive `progress` + `egress` until no further progress is
possible (as the byte pump in `main.rs` does). -/

/-- Decode a byte stream as consecutive 32-byte records, one decoded event
batch per record; a trailing run of fewer than 32 bytes yields nothing. -/
def decodeRecords (l : List Nat) : List Event :=
  if _h : 32 ≤ l.length then
    PingServer.handle_ping_event (PingEvent.from_bytes (l.take 32)) ++
      decodeRecords (l.drop 32)
  else
    []
termination_by l.length
decreasing_by
  simp [List.length_drop]
  omega

/-- The bytes accepted by one `ingest` call, read off the call's result:
everything on `Ok`, the first `read` bytes on `IngestFull { read }`. -/
def acceptedBytes (s : PingServer) (data : List Nat) : List Nat :=
  match (s.ingest data).2 with
  | .ok _ => data
  | .error (.IngestFull read) => data.take read
  | .error _ => []

/-- Run a sequence of `ingest` calls, returning the final server and the
concatenation of all successfully ingested bytes. -/
def ingestRun (s : PingServer) : List (List Nat) → PingServer × List Nat
  | [] => (s, [])
  | d :: ds =>
      let acc := acceptedBytes s d
      let r := ingestRun (s.ingest d).1 ds
      (r.1, acc ++ r.2)

/-- Repeat `progress` followed by a full `egress` drain, until progress stops
(either `Ok`, meaning fewer than 32 bytes remain, or `IngestEmpty`); on
`EgressFull` the loop continues, exactly as the byte pump in `main.rs` keeps
draining and retrying.  Fuel bounds the number of rounds (the real loop is
driven by the runtime); the collected events and the final server state are
returned. -/
def drainRounds : Nat → PingServer → List Event × PingServer
  | 0, s => ([], s)
  | fuel + 1, s =>
      let p := s.progress
      let e := p.1.egress p.1.ready_events
      match p.2 with
      | .error .EgressFull =>
          let r := drainRounds fuel e.2
          (e.1 ++ r.1, r.2)
      | _ => (e.1, e.2)

/-! ## Helper lemmas -/

theorem getD_drop (l : List Nat) (i j : Nat) :
    (l.drop i).getD j 0 = l.getD (i + j) 0 := by
  simp [List.getD_eq_getElem?_getD, List.getElem?_drop]

theorem getD_take (l : List Nat) (n j : Nat) (h : j < n) :
    (l.take n).getD j 0 = l.getD j 0 := by
  simp [List.getD_eq_getElem?_getD, List.getElem?_take, h]

/-! ## Claim C1: record decoding -/

/-- C1: from one 32-byte PingRecord, `handle_ping_event` (called once per
record by `PingServer::progress`) produces exactly one `PlacePixel` event
whose `x` is the big-endian u16 from destination bytes `[6..8]`, `y` the
big-endian u16 from destination bytes `[8..10]`, and whose color components
come from destination bytes 11, 13 and 15.  The right-hand side mentions only
those destination bytes, so neither the source address nor any other
destination byte influences the event. -/
theorem handle_ping_event_decode (e : PingEvent) :
    PingServer.handle_ping_event e =
      [Event.PlacePixel
        (256 * e.destination_address.getD 6 0 + e.destination_address.getD 7 0)
        (256 * e.destination_address.getD 8 0 + e.destination_address.getD 9 0)
        { r := e.destination_address.getD 11 0,
          g := e.destination_address.getD 13 0,
          b := e.destination_address.getD 15 0 }] := by
  simp [PingServer.handle_ping_event, slice, u16_from_be_bytes, getD_take, getD_drop]

/-! ## Claim C10: PingEvent serialization round-trip -/

/-- C10: `from_bytes` is a left inverse of `as_bytes` on well-formed events;
on a 32-byte buffer, `from_bytes` takes bytes `[0..16]` as the source address
and bytes `[16..32]` as the destination address, and `as_bytes` restores the
buffer. -/
theorem pingEvent_roundtrip (e : PingEvent)
    (hs : e.source_address.length = 16)
    (hd : e.destination_address.length = 16)
    (b : List Nat) (_hb : b.length = 32) :
    PingEvent.from_bytes e.as_bytes = e ∧
    (PingEvent.from_bytes b).source_address = b.take 16 ∧
    (PingEvent.from_bytes b).destination_address = b.drop 16 ∧
    (PingEvent.from_bytes b).as_bytes = b := by
  refine ⟨?_, rfl, rfl, ?_⟩
  · cases e with
    | mk src dst =>
      simp only at hs
      simp only [PingEvent.as_bytes, PingEvent.from_bytes, PingEvent.mk.injEq]
      rw [← hs]
      exact ⟨List.take_left src dst, List.drop_left src dst⟩
  · simp only [PingEvent.as_bytes, PingEvent.from_bytes]
    exact List.take_append_drop 16 b

/-- Witness for C10 at a concrete event and buffer. -/
theorem pingEvent_roundtrip_witness :
    PingEvent.from_bytes (PingEvent.new (List.replicate 16 7) (List.replicate 16 9)).as_bytes =
      PingEvent.new (List.replicate 16 7) (List.replicate 16 9) ∧
    (PingEvent.from_bytes (List.replicate 32 5)).source_address = (List.replicate 32 5).take 16 ∧
    (PingEvent.from_bytes (List.replicate 32 5)).destination_address = (List.replicate 32 5).drop 16 ∧
    (PingEvent.from_bytes (List.replicate 32 5)).as_bytes = List.replicate 32 5 :=
  pingEvent_roundtrip (PingEvent.new (List.replicate 16 7) (List.replicate 16 9))
    (by decide) (by decide) (List.replicate 32 5) (by decide)

/-! ## Claim C5: ingest semantics -/

/-- C5: `ingest` returns `Ok` iff all of `data` fits into the ingest buffer's
remaining capacity (in which case everything is appended); otherwise it
returns `IngestFull { read }` with `read < data.len()`, `read` equal to the
number of bytes actually copied (`0` when the buffer was already full), and
the ingest buffer grows by exactly `read` bytes. -/
theorem ingest_spec (s : PingServer) (data : List Nat) :
    ((s.ingest data).2 = .ok () ↔
        data.length ≤ s.ingest_capacity - s.ingestBuf.length) ∧
    ((s.ingest data).2 = .ok () →
        (s.ingest data).1.ingestBuf = s.ingestBuf ++ data) ∧
    (∀ read, (s.ingest data).2 = .error (.IngestFull read) →
        read < data.length ∧
        read = min (s.ingest_capacity - s.ingestBuf.length) data.length ∧
        (s.ingest data).1.ingestBuf = s.ingestBuf ++ data.take read ∧
        (s.ingest data).1.ingestBuf.length = s.ingestBuf.length + read ∧
        (s.ingest_capacity ≤ s.ingestBuf.length → read = 0)) ∧
    (¬ data.length ≤ s.ingest_capacity - s.ingestBuf.length →
        (s.ingest data).2 =
          .error (.IngestFull (s.ingest_capacity - s.ingestBuf.length))) := by
  by_cases h : min (s.ingest_capacity - s.ingestBuf.length) data.length < data.length
  · simp only [PingServer.ingest, if_pos h]
    refine ⟨by simp; omega, by simp, ?_, ?_⟩
    · intro read hr
      simp only [Except.error.injEq, PingServerError.IngestFull.injEq] at hr
      subst hr
      refine ⟨h, rfl, rfl, ?_, ?_⟩
      · simp
      · intro hfull
        omega
    · intro hnotfit
      simp
      omega
  · simp only [PingServer.ingest, if_neg h]
    refine ⟨by simp; omega, ?_, by simp, by simp; omega⟩
    intro _
    simp
    omega

/-- Witness for C5: capacity 4, two bytes buffered, three bytes offered;
only two are copied and `IngestFull { read := 2 }` is reported. -/
theorem ingest_spec_witness :
    ¬ (3 ≤ 4 - 2) ∧
    (({ ingest_capacity := 4, egress_capacity := 1, ingestBuf := [0, 1],
        egressBuf := [] : PingServer }.ingest [2, 3, 4]).2 =
      .error (.IngestFull (4 - 2))) :=
  ⟨by decide,
   (ingest_spec
      { ingest_capacity := 4, egress_capacity := 1, ingestBuf := [0, 1],
        egressBuf := [] } [2, 3, 4]).2.2.2 (by decide)⟩

/-! ## Claim C9: set_pixel bounds and frame conditions -/

/-- Row-major cell indices are injective on in-bounds columns. -/
theorem rowMajor_inj {w x x' y y' : Nat} (hx : x < w) (hx' : x' < w)
    (h : y * w + x = y' * w + x') : x = x' ∧ y = y' := by
  have hw : 0 < w := Nat.lt_of_le_of_lt (Nat.zero_le x) hx
  have h1 : (y * w + x) % w = x := by
    rw [Nat.mul_comm, Nat.mul_add_mod]
    exact Nat.mod_eq_of_lt hx
  have h2 : (y' * w + x') % w = x' := by
    rw [Nat.mul_comm, Nat.mul_add_mod]
    exact Nat.mod_eq_of_lt hx'
  have hxx : x = x' := by rw [← h1, ← h2, h]
  subst hxx
  exact ⟨rfl, Nat.eq_of_mul_eq_mul_right hw (Nat.add_right_cancel h)⟩

/-- C9: `set_pixel` errors iff the coordinate is out of bounds; on error the
canvas is unchanged; on success the targeted cell holds the new color and
every other cell is unchanged. -/
theorem set_pixel_spec (c : Canvas) (x y : Nat) (color : PixelColor)
    (hlen : c.data.length = c.width * c.height) :
    ((c.set_pixel x y color).2 = .error () ↔ (c.width ≤ x ∨ c.height ≤ y)) ∧
    ((c.set_pixel x y color).2 = .error () → (c.set_pixel x y color).1 = c) ∧
    ((c.set_pixel x y color).2 = .ok () →
      (c.set_pixel x y color).1.get_pixel x y = some color ∧
      ∀ x' y', ¬ (x' = x ∧ y' = y) →
        (c.set_pixel x y color).1.get_pixel x' y' = c.get_pixel x' y') := by
  by_cases hb : x ≥ c.width ∨ y ≥ c.height
  · simp only [Canvas.set_pixel, if_pos hb]
    exact ⟨by simpa using hb, by simp, by simp⟩
  · push_neg at hb
    obtain ⟨hxw, hyh⟩ := hb
    have hnot : ¬ (x ≥ c.width ∨ y ≥ c.height) := by omega
    have hidx : y * c.width + x < c.data.length := by
      rw [hlen]
      calc y * c.width + x < y * c.width + c.width := by omega
        _ = (y + 1) * c.width := by ring
        _ ≤ c.height * c.width := Nat.mul_le_mul_right _ (by omega)
        _ = c.width * c.height := Nat.mul_comm _ _
    simp only [Canvas.set_pixel, if_neg hnot]
    refine ⟨by simp; omega, by simp, fun _ => ⟨?_, ?_⟩⟩
    · simp only [Canvas.get_pixel, if_neg hnot]
      rw [List.getD_eq_getElem?_getD, List.getElem?_set_self hidx]
      rfl
    · intro x' y' hne
      simp only [Canvas.get_pixel]
      by_cases hb' : x' ≥ c.width ∨ y' ≥ c.height
      · simp [if_pos hb']
      · push_neg at hb'
        have hnot' : ¬ (x' ≥ c.width ∨ y' ≥ c.height) := by omega
        simp only [if_neg hnot', Option.some.injEq]
        rw [List.getD_eq_getElem?_getD, List.getD_eq_getElem?_getD,
          List.getElem?_set_ne]
        intro heq
        obtain ⟨hx1, hy1⟩ := rowMajor_inj hxw hb'.1 heq
        exact hne ⟨hx1.symm, hy1.symm⟩

/-- Witness for C9 on a concrete 2-by-2 canvas. -/
theorem set_pixel_spec_witness :
    (((Canvas.new 2 2).set_pixel 0 1 { r := 255, g := 0, b := 0 }).2 = .error () ↔
      ((Canvas.new 2 2).width ≤ 0 ∨ (Canvas.new 2 2).height ≤ 1)) ∧
    (((Canvas.new 2 2).set_pixel 0 1 { r := 255, g := 0, b := 0 }).2 = .error () →
      ((Canvas.new 2 2).set_pixel 0 1 { r := 255, g := 0, b := 0 }).1 = Canvas.new 2 2) ∧
    (((Canvas.new 2 2).set_pixel 0 1 { r := 255, g := 0, b := 0 }).2 = .ok () →
      ((Canvas.new 2 2).set_pixel 0 1 { r := 255, g := 0, b := 0 }).1.get_pixel 0 1 =
        some { r := 255, g := 0, b := 0 } ∧
      ∀ x' y', ¬ (x' = 0 ∧ y' = 1) →
        ((Canvas.new 2 2).set_pixel 0 1 { r := 255, g := 0, b := 0 }).1.get_pixel x' y' =
          (Canvas.new 2 2).get_pixel x' y') :=
  set_pixel_spec (Canvas.new 2 2) 0 1 { r := 255, g := 0, b := 0 } (by decide)

/-! ## Claim C7: classifier behaviour on failed header bounds checks

The claim says a failing header bounds check makes the classifier return the
abort action.  In the source every `Err` from `ptr_at` propagates to an early
`return xdp_action::XDP_PASS` (the "not a packet for us" arms), so the packet
is passed, not aborted; `XDP_ABORTED` is returned only when the PREFIX map is
unpopulated. -/

/-- Counterexample to C7 as stated: on the empty packet the Ethernet-header
bounds check fails, yet the classifier returns `XDP_PASS`, not
`XDP_ABORTED`. -/
theorem classifier_bounds_cex :
    ptr_at [] 0 EthHdr.LEN = .error () ∧
    ipcanvas_ping [] (some { address := List.replicate 16 0, prefix_len := 0 }) true =
      XDP_PASS ∧
    ipcanvas_ping [] (some { address := List.replicate 16 0, prefix_len := 0 }) true ≠
      XDP_ABORTED := by
  refine ⟨rfl, rfl, ?_⟩
  decide

/-- C7 amended: whenever reading the Ethernet, IPv6, or ICMPv6 header would
run past the packet's end pointer (the packet is shorter than the 14 + 40 + 4
header bytes), the classifier returns the pass action, never abort. -/
theorem classifier_short_packet_passes (pkt : List Nat) (pm : Option Ipv6Prefix)
    (ring_accepts : Bool)
    (h : pkt.length < EthHdr.LEN + Ipv6Hdr.LEN + IcmpV6Hdr.LEN) :
    ipcanvas_ping pkt pm ring_accepts = XDP_PASS := by
  have h58 : pkt.length < 58 := h
  by_cases h1 : pkt.length < 14
  · have he : try_ipv6 pkt = .error () := by
      unfold try_ipv6 ptr_at
      rw [if_pos (by simpa [EthHdr.LEN] using h1)]
    unfold ipcanvas_ping
    rw [he]
  · have hp1 : ptr_at pkt 0 EthHdr.LEN = .ok 0 := by
      unfold ptr_at
      rw [if_neg (by simp [EthHdr.LEN]; omega)]
    by_cases h2 : 256 * pkt.getD 12 0 + pkt.getD 13 0 = 0x86DD
    · -- EtherType is IPv6; the ICMPv6 path must hit a failing bounds check
      have hicmp : try_icmp_echo_request pkt EthHdr.LEN = .error () := by
        unfold try_icmp_echo_request
        by_cases h3 : pkt.length < 54
        · rw [show ptr_at pkt EthHdr.LEN Ipv6Hdr.LEN = .error () from by
            unfold ptr_at
            rw [if_pos (by simp [EthHdr.LEN, Ipv6Hdr.LEN]; omega)]]
        · rw [show ptr_at pkt EthHdr.LEN Ipv6Hdr.LEN = .ok EthHdr.LEN from by
            unfold ptr_at
            rw [if_neg (by simp [EthHdr.LEN, Ipv6Hdr.LEN]; omega)]]
          by_cases h4 : pkt.getD (EthHdr.LEN + 6) 0 = 58
          · rw [if_pos h4,
              show ptr_at pkt (EthHdr.LEN + Ipv6Hdr.LEN) IcmpV6Hdr.LEN = .error () from by
                unfold ptr_at
                rw [if_pos (by simp [EthHdr.LEN, Ipv6Hdr.LEN, IcmpV6Hdr.LEN]; omega)]]
          · rw [if_neg h4]
      unfold ipcanvas_ping try_ipv6
      rw [hp1]
      simp only [if_pos h2, hicmp]
    · have he : try_ipv6 pkt = .error () := by
        unfold try_ipv6
        rw [hp1, if_neg h2]
      unfold ipcanvas_ping
      rw [he]

/-- Witness for the amended C7 at the empty packet. -/
theorem classifier_short_packet_passes_witness :
    ([] : List Nat).length < EthHdr.LEN + Ipv6Hdr.LEN + IcmpV6Hdr.LEN ∧
    ipcanvas_ping [] none false = XDP_PASS :=
  ⟨by decide, classifier_short_packet_passes [] none false (by decide)⟩

/-! ## Claim C8: published diffs are non-empty

In the loop, a diff is published only under the `!diff.is_empty()` guard, so
steady-state diffs are never empty.  But after the loop exits (event channel
closed) the final diff is sent unconditionally (`main.rs` lines 385-388), so
the shutdown diff can be empty. -/

/-- Counterexample to C8 as stated: closing the event channel with no events
publishes an empty final diff. -/
theorem canvas_task_final_diff_cex :
    (canvas_task (Canvas.new 1 1) []).1 = [] ∧
    ((canvas_task (Canvas.new 1 1) []).2).is_empty = true := by
  decide

/-- C8 amended: every diff the canvas task publishes from its steady-state
loop is non-empty; only the final diff sent at shutdown is published
unconditionally and may be empty. -/
theorem canvas_task_loop_diffs_nonempty (init : Canvas) (inputs : List CanvasInput) :
    ∀ d ∈ (canvas_task init inputs).1, d.is_empty = false := by
  suffices hrun : ∀ (inps : List CanvasInput) (st : CanvasTaskState),
      ∀ d ∈ (canvasTaskRun st inps).1, d.is_empty = false by
    intro d hd
    exact hrun inputs _ d hd
  intro inps
  induction inps with
  | nil =>
      intro st d hd
      simp [canvasTaskRun] at hd
  | cons inp rest ih =>
      intro st d hd
      simp only [canvasTaskRun] at hd
      rw [List.mem_append] at hd
      rcases hd with hd | hd
      · -- the diff was published by this iteration
        rcases inp with ⟨x, y, color⟩ | _
        · simp [canvasTaskStep] at hd
        · simp only [canvasTaskStep] at hd
          by_cases hflag : st.change_flag
          · rw [if_pos hflag] at hd
            by_cases hemp : (st.prev_canvas.diff st.canvas).is_empty
            · rw [if_pos hemp] at hd
              simp at hd
            · rw [if_neg hemp] at hd
              simp at hd
              rw [hd]
              exact Bool.not_eq_true _ ▸ eq_false_of_ne_true hemp
          · rw [if_neg hflag] at hd
            simp at hd
      · exact ih _ d hd

/-- Witness for the amended C8: one pixel change followed by a tick publishes
exactly the singleton diff, which is non-empty. -/
theorem canvas_task_loop_diffs_nonempty_witness :
    (CanvasDiff.mk [{ x := 0, y := 0, color := { r := 255, g := 0, b := 0 } }]).is_empty
      = false :=
  canvas_task_loop_diffs_nonempty (Canvas.new 1 1)
    [CanvasInput.place 0 0 { r := 255, g := 0, b := 0 }, CanvasInput.tick]
    (CanvasDiff.mk [{ x := 0, y := 0, color := { r := 255, g := 0, b := 0 } }])
    (by decide)

/-! ## Properties of the progress loop (used for C3 and C4) -/

theorem slice_self (l : List Nat) (i : Nat) : slice l i i = [] := by
  simp [slice]

theorem slice_take (l : List Nat) (i j m : Nat) (h : i + m ≤ j) :
    (slice l i j).take m = slice l i (i + m) := by
  simp only [slice, List.take_take]
  congr 1
  omega

theorem slice_drop32 (l : List Nat) (i j : Nat) :
    (slice l i j).drop 32 = slice l (i + 32) j := by
  simp only [slice, List.drop_take, List.drop_drop]
  congr 1

theorem slice_length (l : List Nat) (i j : Nat) :
    (slice l i j).length = min (j - i) (l.length - i) := by
  simp [slice]

theorem decodeRecords_nil : decodeRecords [] = [] := by
  rw [decodeRecords]
  simp

theorem decodeRecords_short (l : List Nat) (h : l.length < 32) :
    decodeRecords l = [] := by
  rw [decodeRecords]
  rw [dif_neg (by omega)]

theorem handle_ping_event_length (e : PingEvent) :
    (PingServer.handle_ping_event e).length = 1 := rfl

theorem decodeRecords_length (l : List Nat) :
    (decodeRecords l).length = l.length / 32 := by
  suffices h : ∀ (n : Nat) (l : List Nat), l.length ≤ n →
      (decodeRecords l).length = l.length / 32 from h l.length l (Nat.le_refl _)
  intro n
  induction n with
  | zero =>
      intro l hl
      rw [decodeRecords, dif_neg (by omega)]
      simp
      omega
  | succ n ih =>
      intro l hl
      rw [decodeRecords]
      by_cases h32 : 32 ≤ l.length
      · rw [dif_pos h32, List.length_append,
          ih (l.drop 32) (by simp [List.length_drop]; omega),
          handle_ping_event_length, List.length_drop]
        omega
      · rw [dif_neg h32]
        simp
        omega

/-- The loop of `progress`, fully characterized: starting at `offset` with an
egress buffer respecting its capacity, the loop consumes
`min (records available) (egress capacity remaining)` records, appends their
decoded events to the egress buffer, and sets the egress-full flag exactly
when records remain beyond the free egress capacity. -/
theorem progressLoop_master (s : PingServer) :
    ∀ (n off : Nat) (eg : List Event),
      s.ingestBuf.length - off ≤ n →
      eg.length ≤ s.egress_capacity →
      PingServer.progressLoop s off eg =
        (off + 32 * min ((s.ingestBuf.length - off) / 32) (s.egress_capacity - eg.length),
         eg ++ decodeRecords (slice s.ingestBuf off
           (off + 32 * min ((s.ingestBuf.length - off) / 32) (s.egress_capacity - eg.length))),
         decide (s.egress_capacity - eg.length < (s.ingestBuf.length - off) / 32)) := by
  intro n
  induction n with
  | zero =>
      intro off eg hn _heg
      have hoff : ¬ (off + 32 ≤ s.ingestBuf.length) := by omega
      have hz : (s.ingestBuf.length - off) / 32 = 0 := by omega
      rw [PingServer.progressLoop, dif_neg hoff, hz]
      simp [slice_self, decodeRecords_nil]
  | succ n ih =>
      intro off eg hn heg
      rw [PingServer.progressLoop]
      by_cases hoff : off + 32 ≤ s.ingestBuf.length
      · rw [dif_pos hoff]
        have hrec1 : 1 ≤ (s.ingestBuf.length - off) / 32 := by omega
        simp only [handle_ping_event_length]
        by_cases hfull : eg.length + 1 > s.egress_capacity
        · rw [if_pos hfull]
          have havail : s.egress_capacity - eg.length = 0 := by omega
          rw [havail]
          simp only [Nat.min_zero, Nat.mul_zero, Nat.add_zero, slice_self,
            decodeRecords_nil, List.append_nil, Prod.mk.injEq]
          exact ⟨trivial, trivial, (decide_eq_true (by omega)).symm⟩
        · rw [if_neg hfull]
          rw [ih (off + 32) _ (by omega)
            (by rw [List.length_append, handle_ping_event_length]; omega)]
          simp only [Prod.mk.injEq, List.length_append, handle_ping_event_length]
          set m := min ((s.ingestBuf.length - (off + 32)) / 32)
            (s.egress_capacity - (eg.length + 1)) with hm
          refine ⟨by omega, ?_, by simp only [decide_eq_decide]; omega⟩
          have hmin : min ((s.ingestBuf.length - off) / 32)
              (s.egress_capacity - eg.length) = m + 1 := by
            omega
          rw [hmin]
          have h32 : 32 ≤ (slice s.ingestBuf off (off + 32 * (m + 1))).length := by
            rw [slice_length]
            omega
          have hsplit : decodeRecords (slice s.ingestBuf off (off + 32 * (m + 1))) =
              PingServer.handle_ping_event (PingEvent.from_bytes
                ((slice s.ingestBuf off (off + 32 * (m + 1))).take 32)) ++
              decodeRecords ((slice s.ingestBuf off (off + 32 * (m + 1))).drop 32) := by
            rw [decodeRecords, dif_pos h32]
          rw [hsplit, slice_take s.ingestBuf off _ 32 (by omega), slice_drop32,
            show off + 32 * (m + 1) = off + 32 + 32 * m from by ring,
            List.append_assoc]
      · rw [dif_neg hoff]
        have hz : (s.ingestBuf.length - off) / 32 = 0 := by omega
        rw [hz]
        simp [slice_self, decodeRecords_nil]

theorem slice_zero (l : List Nat) (j : Nat) : slice l 0 j = l.take j := by
  simp [slice]

/-- `progress`, fully characterized when at least one record is buffered. -/
theorem progress_master (s : PingServer)
    (heg : s.egressBuf.length ≤ s.egress_capacity)
    (h32 : 32 ≤ s.ingestBuf.length) :
    s.progress =
      ({ s with
          ingestBuf := s.ingestBuf.drop
            (32 * min (s.ingestBuf.length / 32) (s.egress_capacity - s.egressBuf.length)),
          egressBuf := s.egressBuf ++ decodeRecords (s.ingestBuf.take
            (32 * min (s.ingestBuf.length / 32) (s.egress_capacity - s.egressBuf.length))) },
       if s.egress_capacity - s.egressBuf.length < s.ingestBuf.length / 32
       then .error .EgressFull else .ok ()) := by
  rw [PingServer.progress, if_neg (by omega)]
  simp only [progressLoop_master s s.ingestBuf.length 0 s.egressBuf (by omega) heg,
    Nat.sub_zero, Nat.zero_add, slice_zero, decide_eq_true_eq]
  split <;> rfl

/-- Witness-level consequence: with fewer than 32 buffered bytes, `progress`
changes nothing and reports `IngestEmpty`. -/
theorem progress_ingest_empty (s : PingServer) (h : s.ingestBuf.length < 32) :
    s.progress = (s, .error .IngestEmpty) := by
  rw [PingServer.progress, if_pos h]

/-! ## Claim C4: progress result characterization -/

/-- Counterexample to C4 as stated: with an empty ingest buffer and a full
egress buffer, `progress` returns `IngestEmpty` even though the egress buffer
has no remaining capacity (the claim would require `Ok` here). -/
theorem progress_result_cex :
    (PingServer.mk 64 1 [] [Event.PlacePixel 0 0 { r := 0, g := 0, b := 0 }]).progress.2 =
      .error .IngestEmpty ∧
    ¬ ((PingServer.mk 64 1 [] [Event.PlacePixel 0 0 { r := 0, g := 0, b := 0 }]).egressBuf.length <
        (PingServer.mk 64 1 [] [Event.PlacePixel 0 0 { r := 0, g := 0, b := 0 }]).egress_capacity) := by
  refine ⟨?_, by decide⟩
  rw [progress_ingest_empty _ (by decide)]

/-- C4 amended: `progress` returns `IngestEmpty` iff at entry the ingest
buffer holds fewer than 32 bytes (regardless of egress capacity); it returns
`EgressFull` iff it halted with at least 32 bytes still in the ingest buffer
while the egress buffer is full; in every other case it returns `Ok`. -/
theorem progress_result_spec (s : PingServer)
    (heg : s.egressBuf.length ≤ s.egress_capacity) :
    ((s.progress.2 = .error .IngestEmpty) ↔ s.ingestBuf.length < 32) ∧
    ((s.progress.2 = .error .EgressFull) ↔
      (32 ≤ s.progress.1.ingestBuf.length ∧
       s.progress.1.egressBuf.length = s.egress_capacity)) ∧
    ((s.progress.2 = .ok ()) ↔
      (¬ s.ingestBuf.length < 32 ∧
       ¬ (32 ≤ s.progress.1.ingestBuf.length ∧
          s.progress.1.egressBuf.length = s.egress_capacity))) := by
  by_cases h32 : s.ingestBuf.length < 32
  · rw [progress_ingest_empty s h32]
    refine ⟨iff_of_true rfl h32, iff_of_false (by simp) ?_, iff_of_false (by simp) ?_⟩
    · rintro ⟨h1, -⟩
      exact absurd (show 32 ≤ s.ingestBuf.length from h1) (by omega)
    · rintro ⟨h1, -⟩
      exact h1 h32
  · rw [progress_master s heg (by omega)]
    have hk : (s.ingestBuf.take
        (32 * min (s.ingestBuf.length / 32)
          (s.egress_capacity - s.egressBuf.length))).length =
        32 * min (s.ingestBuf.length / 32) (s.egress_capacity - s.egressBuf.length) := by
      rw [List.length_take]
      omega
    by_cases hP : s.egress_capacity - s.egressBuf.length < s.ingestBuf.length / 32
    · rw [if_pos hP]
      simp only [List.length_append, List.length_drop, decodeRecords_length, hk]
      refine ⟨iff_of_false (by simp) h32, iff_of_true (by simp) ⟨by omega, by omega⟩, ?_⟩
      refine iff_of_false (by simp) ?_
      rintro ⟨-, h2⟩
      exact h2 ⟨by omega, by omega⟩
    · rw [if_neg hP]
      simp only [List.length_append, List.length_drop, decodeRecords_length, hk]
      have hno : ¬ (32 ≤ s.ingestBuf.length -
            32 * min (s.ingestBuf.length / 32) (s.egress_capacity - s.egressBuf.length) ∧
          s.egressBuf.length +
            32 * min (s.ingestBuf.length / 32) (s.egress_capacity - s.egressBuf.length) / 32 =
            s.egress_capacity) := by
        omega
      exact ⟨iff_of_false (by simp) h32, iff_of_false (by simp) hno,
        iff_of_true (by simp) ⟨h32, hno⟩⟩

/-- Witness for the amended C4 at a concrete server (one buffered record,
empty egress buffer of capacity 1). -/
theorem progress_result_spec_witness :
    ((PingServer.mk 64 1 (List.replicate 32 0) []).progress.2 = .error .IngestEmpty) ↔
      (PingServer.mk 64 1 (List.replicate 32 0) []).ingestBuf.length < 32 :=
  (progress_result_spec (PingServer.mk 64 1 (List.replicate 32 0) []) (by decide)).1

/-! ## Claim C3: end-to-end stream decoding -/

theorem decode_split (m : Nat) : ∀ l : List Nat,
    decodeRecords l =
      decodeRecords (l.take (32 * m)) ++ decodeRecords (l.drop (32 * m)) := by
  induction m with
  | zero =>
      intro l
      simp [decodeRecords_nil]
  | succ m ih =>
      intro l
      by_cases h : 32 ≤ l.length
      · have h2 : 32 ≤ (l.take (32 * (m + 1))).length := by
          rw [List.length_take]
          omega
        have htt : (l.take (32 * (m + 1))).take 32 = l.take 32 := by
          rw [List.take_take]
          congr 1
          omega
        have htd : (l.take (32 * (m + 1))).drop 32 = (l.drop 32).take (32 * m) := by
          rw [List.drop_take]
          congr 1
        have hdd : l.drop (32 * (m + 1)) = (l.drop 32).drop (32 * m) := by
          rw [List.drop_drop]
          congr 1
          omega
        rw [show decodeRecords l =
            PingServer.handle_ping_event (PingEvent.from_bytes (l.take 32)) ++
              decodeRecords (l.drop 32) from by rw [decodeRecords, dif_pos h],
          show decodeRecords (l.take (32 * (m + 1))) =
            PingServer.handle_ping_event
                (PingEvent.from_bytes ((l.take (32 * (m + 1))).take 32)) ++
              decodeRecords ((l.take (32 * (m + 1))).drop 32) from by
            rw [decodeRecords, dif_pos h2],
          htt, htd, hdd, ih (l.drop 32), List.append_assoc]
      · rw [decodeRecords_short l (by omega),
          decodeRecords_short _ (by rw [List.length_take]; omega),
          decodeRecords_short _ (by rw [List.length_drop]; omega)]
        rfl

/-- One full drain (`progress` then `egress` of everything, repeated while
`progress` reports `EgressFull`) turns the buffered bytes into exactly their
record decoding, leaving the trailing partial record in the ingest buffer. -/
theorem drainRounds_spec :
    ∀ (fuel : Nat) (s : PingServer),
      s.egressBuf = [] →
      1 ≤ s.egress_capacity →
      s.ingestBuf.length ≤ fuel →
      drainRounds fuel s =
        (decodeRecords s.ingestBuf,
         { s with
            ingestBuf := s.ingestBuf.drop (32 * (s.ingestBuf.length / 32)),
            egressBuf := [] }) := by
  intro fuel
  induction fuel with
  | zero =>
      intro s heb _hcap hlen
      obtain ⟨ci, ce, ib, eb⟩ := s
      have hib : ib = [] := List.length_eq_zero.mp (Nat.le_zero.mp hlen)
      subst heb
      subst hib
      rw [drainRounds]
      simp [decodeRecords_nil]
  | succ fuel ih =>
      intro s heb hcap hlen
      by_cases hlt : s.ingestBuf.length < 32
      · rw [drainRounds]
        simp only [progress_ingest_empty s hlt, PingServer.egress,
          PingServer.ready_events, heb]
        rw [decodeRecords_short s.ingestBuf hlt]
        have hz : s.ingestBuf.length / 32 = 0 := by omega
        rw [hz]
        simp
      · rw [drainRounds]
        have hmast := progress_master s (by rw [heb]; simp) (by omega)
        rw [heb] at hmast
        simp only [List.length_nil, Nat.sub_zero, List.nil_append] at hmast
        by_cases hP : s.egress_capacity < s.ingestBuf.length / 32
        · rw [if_pos hP] at hmast
          simp only [hmast, PingServer.egress, PingServer.ready_events]
          have hk : min (s.ingestBuf.length / 32) s.egress_capacity =
              s.egress_capacity := by omega
          rw [hk]
          simp only [Nat.min_self, List.take_length, List.drop_length]
          rw [ih { s with
                ingestBuf := s.ingestBuf.drop (32 * s.egress_capacity),
                egressBuf := ([] : List Event) }
            rfl hcap
            (show (s.ingestBuf.drop (32 * s.egress_capacity)).length ≤ fuel from by
              rw [List.length_drop]; omega)]
          simp only [List.length_drop, List.drop_drop]
          rw [show 32 * s.egress_capacity +
                32 * ((s.ingestBuf.length - 32 * s.egress_capacity) / 32) =
              32 * (s.ingestBuf.length / 32) from by omega]
          rw [decode_split s.egress_capacity s.ingestBuf]
        · rw [if_neg hP] at hmast
          simp only [hmast, PingServer.egress, PingServer.ready_events]
          have hk : min (s.ingestBuf.length / 32) s.egress_capacity =
              s.ingestBuf.length / 32 := by omega
          rw [hk]
          simp only [Nat.min_self, List.take_length, List.drop_length]
          rw [decode_split (s.ingestBuf.length / 32) s.ingestBuf,
            decodeRecords_short (s.ingestBuf.drop (32 * (s.ingestBuf.length / 32)))
              (by rw [List.length_drop]; omega),
            List.append_nil]

/-- `ingest` appends exactly the accepted bytes and touches nothing else. -/
theorem ingest_preserves (s : PingServer) (d : List Nat) :
    (s.ingest d).1.ingestBuf = s.ingestBuf ++ acceptedBytes s d ∧
    (s.ingest d).1.egressBuf = s.egressBuf ∧
    (s.ingest d).1.ingest_capacity = s.ingest_capacity ∧
    (s.ingest d).1.egress_capacity = s.egress_capacity := by
  by_cases h : min (s.ingest_capacity - s.ingestBuf.length) d.length < d.length
  · simp [PingServer.ingest, acceptedBytes, h]
  · have hmin : min (s.ingest_capacity - s.ingestBuf.length) d.length = d.length := by
      omega
    simp [PingServer.ingest, acceptedBytes, h, hmin]

/-- A run of `ingest` calls accumulates exactly the accepted bytes in the
ingest buffer and leaves everything else alone. -/
theorem ingestRun_spec (ds : List (List Nat)) : ∀ s : PingServer,
    (ingestRun s ds).1.ingestBuf = s.ingestBuf ++ (ingestRun s ds).2 ∧
    (ingestRun s ds).1.egressBuf = s.egressBuf ∧
    (ingestRun s ds).1.ingest_capacity = s.ingest_capacity ∧
    (ingestRun s ds).1.egress_capacity = s.egress_capacity := by
  induction ds with
  | nil =>
      intro s
      simp [ingestRun]
  | cons d ds ih =>
      intro s
      have hstep := ingest_preserves s d
      have hrec := ih (s.ingest d).1
      simp only [ingestRun]
      refine ⟨?_, ?_, ?_, ?_⟩
      · rw [hrec.1, hstep.1, List.append_assoc]
      · rw [hrec.2.1, hstep.2.1]
      · rw [hrec.2.2.1, hstep.2.2.1]
      · rw [hrec.2.2.2, hstep.2.2.2]

/-- C3: starting from a fresh server, after any sequence of `ingest` calls
followed by `progress` and `egress` repeated to completion (with enough fuel
to cover the buffered bytes), the multiset of emitted events equals the
multiset obtained by decoding the concatenation of all successfully ingested
bytes as consecutive 32-byte records, and the trailing run of fewer than 32
bytes remains unparsed in the ingest buffer. -/
theorem pipeline_stream_decode (icap ecap : Nat) (hcap : 1 ≤ ecap)
    (ds : List (List Nat)) (fuel : Nat)
    (hfuel : (ingestRun (PingServer.new icap ecap) ds).2.length ≤ fuel) :
    ((drainRounds fuel (ingestRun (PingServer.new icap ecap) ds).1).1 : Multiset Event) =
      (decodeRecords (ingestRun (PingServer.new icap ecap) ds).2 : Multiset Event) ∧
    (drainRounds fuel (ingestRun (PingServer.new icap ecap) ds).1).2.ingestBuf =
      (ingestRun (PingServer.new icap ecap) ds).2.drop
        (32 * ((ingestRun (PingServer.new icap ecap) ds).2.length / 32)) ∧
    (drainRounds fuel (ingestRun (PingServer.new icap ecap) ds).1).2.ingestBuf.length < 32 := by
  have hrun := ingestRun_spec ds (PingServer.new icap ecap)
  have hib : (ingestRun (PingServer.new icap ecap) ds).1.ingestBuf =
      (ingestRun (PingServer.new icap ecap) ds).2 := by
    simpa [PingServer.new] using hrun.1
  have heb : (ingestRun (PingServer.new icap ecap) ds).1.egressBuf = [] := by
    simpa [PingServer.new] using hrun.2.1
  have hec : (ingestRun (PingServer.new icap ecap) ds).1.egress_capacity = ecap := by
    simpa [PingServer.new] using hrun.2.2.2
  have hd := drainRounds_spec fuel (ingestRun (PingServer.new icap ecap) ds).1 heb
    (by rw [hec]; exact hcap) (by rw [hib]; exact hfuel)
  rw [hd]
  refine ⟨by rw [hib], by simp only [hib], ?_⟩
  simp only [hib, List.length_drop]
  omega

/-- Witness for C3: 40 bytes ingested into a fresh server decode to one
record, leaving 8 trailing bytes unparsed. -/
theorem pipeline_stream_decode_witness :
    (drainRounds 40 (ingestRun (PingServer.new 64 1) [List.replicate 40 0]).1).2.ingestBuf.length
      < 32 :=
  (pipeline_stream_decode 64 1 (by decide) [List.replicate 40 0] 40 (by decide)).2.2

/-! ## Claim C6: canvas diff characterization -/

/-- A `some` result of `get_pixel` implies in-bounds coordinates. -/
theorem get_pixel_some_bounds (c : Canvas) (x y : Nat) (col : PixelColor)
    (h : c.get_pixel x y = some col) : x < c.width ∧ y < c.height := by
  by_contra hc
  rw [Canvas.get_pixel, if_pos (by omega)] at h
  exact absurd h (by simp)

/-- Shape of one candidate diff entry produced by the inner scan. -/
theorem diff_entry_shape (prev cur : Canvas) (y x : Nat) (p : Pixel)
    (h : (if prev.get_pixel x y ≠ cur.get_pixel x y then
        (cur.get_pixel x y).map (fun color => ({ x := x, y := y, color := color } : Pixel))
      else none) = some p) :
    p.x = x ∧ p.y = y ∧ cur.get_pixel x y = some p.color ∧
    prev.get_pixel x y ≠ cur.get_pixel x y := by
  by_cases hne : prev.get_pixel x y ≠ cur.get_pixel x y
  · rw [if_pos hne] at h
    obtain ⟨col, hcol, hpix⟩ := Option.map_eq_some'.mp h
    subst hpix
    exact ⟨rfl, rfl, hcol, hne⟩
  · rw [if_neg hne] at h
    exact absurd h (by simp)

/-- Shape of a member of one row of the diff. -/
theorem diff_inner_shape (prev cur : Canvas) (y : Nat) (p : Pixel)
    (h : p ∈ (List.range prev.width).filterMap (fun x =>
      if prev.get_pixel x y ≠ cur.get_pixel x y then
        (cur.get_pixel x y).map (fun color => ({ x := x, y := y, color := color } : Pixel))
      else none)) :
    p.y = y ∧ p.x < prev.width ∧ cur.get_pixel p.x y = some p.color ∧
    prev.get_pixel p.x y ≠ cur.get_pixel p.x y := by
  rw [List.mem_filterMap] at h
  obtain ⟨x, hx, hgx⟩ := h
  rw [List.mem_range] at hx
  obtain ⟨h1, h2, h3, h4⟩ := diff_entry_shape prev cur y x p hgx
  subst h1
  exact ⟨h2, hx, h3, h4⟩

/-- C6: for same-dimension canvases, `prev.diff(cur)` contains entry
`(x, y, c)` iff `cur` holds `c` at `(x, y)` and `c` differs from `prev` there;
entries are strictly ordered row-major (y outer, x inner); and the diff is
empty iff the canvases are equal. -/
theorem diff_spec (prev cur : Canvas)
    (hw : prev.width = cur.width) (hh : prev.height = cur.height)
    (hl1 : prev.data.length = prev.width * prev.height)
    (hl2 : cur.data.length = cur.width * cur.height) :
    (∀ x y c, ({ x := x, y := y, color := c } : Pixel) ∈ (prev.diff cur).changed_pixels ↔
      (cur.get_pixel x y = some c ∧ prev.get_pixel x y ≠ some c)) ∧
    (prev.diff cur).changed_pixels.Pairwise
      (fun p q => p.y < q.y ∨ (p.y = q.y ∧ p.x < q.x)) ∧
    ((prev.diff cur).changed_pixels = [] ↔ prev = cur) := by
  have hdiff : (prev.diff cur).changed_pixels =
      (List.range prev.height).flatMap (fun y =>
        (List.range prev.width).filterMap (fun x =>
          if prev.get_pixel x y ≠ cur.get_pixel x y then
            (cur.get_pixel x y).map (fun color => ({ x := x, y := y, color := color } : Pixel))
          else none)) := rfl
  refine ⟨?_, ?_, ?_⟩
  · intro x y c
    rw [hdiff, List.mem_flatMap]
    constructor
    · rintro ⟨y', hy', hmem⟩
      obtain ⟨h1, h2, h3, h4⟩ := diff_inner_shape prev cur y' _ hmem
      have hyy : y = y' := h1
      subst hyy
      have h3' : cur.get_pixel x y = some c := h3
      have h4' : prev.get_pixel x y ≠ cur.get_pixel x y := h4
      exact ⟨h3', fun he => h4' (he.trans h3'.symm)⟩
    · rintro ⟨hcur, hprev⟩
      obtain ⟨hxw, hyh⟩ := get_pixel_some_bounds cur x y c hcur
      refine ⟨y, List.mem_range.mpr (by omega), ?_⟩
      rw [List.mem_filterMap]
      refine ⟨x, List.mem_range.mpr (by omega), ?_⟩
      rw [if_pos (fun he => hprev (he.trans hcur)), hcur]
      rfl
  · rw [hdiff, List.pairwise_flatMap]
    constructor
    · intro y hy
      refine List.Pairwise.filterMap _ ?_ (List.pairwise_lt_range prev.width)
      intro a b hab p hp q hq
      rw [Option.mem_def] at hp hq
      obtain ⟨hpx, hpy, -, -⟩ := diff_entry_shape prev cur y a p hp
      obtain ⟨hqx, hqy, -, -⟩ := diff_entry_shape prev cur y b q hq
      exact Or.inr ⟨by rw [hpy, hqy], by rw [hpx, hqx]; exact hab⟩
    · refine List.Pairwise.imp ?_ (List.pairwise_lt_range prev.height)
      intro y₁ y₂ h12 p hp q hq
      obtain ⟨hpy, -, -, -⟩ := diff_inner_shape prev cur y₁ p hp
      obtain ⟨hqy, -, -, -⟩ := diff_inner_shape prev cur y₂ q hq
      exact Or.inl (by rw [hpy, hqy]; exact h12)
  · constructor
    · intro hempty
      have hcell : ∀ x y, x < cur.width → y < cur.height →
          prev.get_pixel x y = cur.get_pixel x y := by
        intro x y hx hy
        by_contra hne
        have hcur : cur.get_pixel x y =
            some (cur.data.getD (y * cur.width + x) WHITE) := by
          rw [Canvas.get_pixel, if_neg (by omega)]
        have hmem : Pixel.mk x y (cur.data.getD (y * cur.width + x) WHITE) ∈
            (prev.diff cur).changed_pixels := by
          rw [hdiff, List.mem_flatMap]
          refine ⟨y, List.mem_range.mpr (by omega), ?_⟩
          rw [List.mem_filterMap]
          refine ⟨x, List.mem_range.mpr (by omega), ?_⟩
          rw [if_pos hne, hcur]
          rfl
        rw [hempty] at hmem
        exact absurd hmem (List.not_mem_nil _)
      have hdata : prev.data = cur.data := by
        apply List.ext_getElem (by rw [hl1, hl2, hw, hh])
        intro n h₁ h₂
        have hwpos : 0 < cur.width := by
          by_contra hw0
          have hz : cur.width = 0 := by omega
          rw [hz, Nat.zero_mul] at hl2
          rw [hl2] at h₂
          omega
        have hx : n % cur.width < cur.width := Nat.mod_lt _ hwpos
        have hy : n / cur.width < cur.height := by
          apply Nat.div_lt_of_lt_mul
          rw [← hl2]
          exact h₂
        have heq := hcell (n % cur.width) (n / cur.width) hx hy
        rw [Canvas.get_pixel, Canvas.get_pixel, if_neg (by omega), if_neg (by omega),
          Option.some_inj, hw] at heq
        have hidx : n / cur.width * cur.width + n % cur.width = n := by
          rw [Nat.mul_comm]
          exact Nat.div_add_mod n cur.width
        rw [hidx] at heq
        rw [List.getD_eq_getElem _ _ h₁, List.getD_eq_getElem _ _ h₂] at heq
        exact heq
      cases prev with
      | mk pw ph pd =>
        cases cur with
        | mk cw ch cd =>
          have hw' : pw = cw := hw
          have hh' : ph = ch := hh
          have hd' : pd = cd := hdata
          subst hw'
          subst hh'
          subst hd'
          rfl
    · intro heq
      subst heq
      rw [hdiff, List.flatMap_eq_nil_iff]
      intro y _hy
      rw [List.filterMap_eq_nil_iff]
      intro x _hx
      rw [if_neg (by simp)]

/-- Witness for C6 on a 2-by-2 canvas with one changed pixel. -/
theorem diff_spec_witness :
    (({ x := 0, y := 1, color := { r := 255, g := 0, b := 0 } } : Pixel) ∈
        ((Canvas.new 2 2).diff
          ((Canvas.new 2 2).set_pixel 0 1 { r := 255, g := 0, b := 0 }).1).changed_pixels ↔
      (((Canvas.new 2 2).set_pixel 0 1 { r := 255, g := 0, b := 0 }).1.get_pixel 0 1 =
          some { r := 255, g := 0, b := 0 } ∧
        (Canvas.new 2 2).get_pixel 0 1 ≠ some { r := 255, g := 0, b := 0 })) :=
  (diff_spec (Canvas.new 2 2)
    ((Canvas.new 2 2).set_pixel 0 1 { r := 255, g := 0, b := 0 }).1
    (by decide) (by decide) (by decide) (by decide)).1 0 1 { r := 255, g := 0, b := 0 }

/-! ## Claim C2: prefix matching -/

theorem getD_lt_256 (l : List Nat) (hb : ∀ b ∈ l, b < 256) (k : Nat)
    (hk : k < l.length) : l.getD k 0 < 256 := by
  rw [List.getD_eq_getElem _ _ hk]
  exact hb _ (List.getElem_mem hk)

/-- Two bytes are equal iff their eight bits (in network bit order) agree. -/
theorem byte_eq_iff_bits (x y : Nat) (hx : x < 256) (hy : y < 256) :
    x = y ↔ ∀ j, j < 8 → Nat.testBit x (7 - j) = Nat.testBit y (7 - j) := by
  constructor
  · intro h j _hj
    rw [h]
  · intro h
    apply Nat.eq_of_testBit_eq
    intro i
    by_cases hi : i < 8
    · have hji := h (7 - i) (by omega)
      rwa [show 7 - (7 - i) = i from by omega] at hji
    · have hpow : (256 : Nat) ≤ 2 ^ i := by
        calc (256 : Nat) = 2 ^ 8 := by norm_num
          _ ≤ 2 ^ i := Nat.pow_le_pow_right (by norm_num) (by omega)
      rw [Nat.testBit_lt_two_pow (by omega), Nat.testBit_lt_two_pow (by omega)]

/-- The bits of the u8 mask `0xFF << (8 - r)` (wrapping modulo 256). -/
theorem mask_testBit (r : Nat) (_h1 : 1 ≤ r) (_h2 : r ≤ 7) (j : Nat) :
    Nat.testBit ((0xFF <<< (8 - r)) % 256) j =
      (decide (8 - r ≤ j) && decide (j < 8)) := by
  rw [show (256 : Nat) = 2 ^ 8 from by norm_num, Nat.testBit_mod_two_pow,
    Nat.testBit_shiftLeft, show (0xFF : Nat) = 2 ^ 8 - 1 from by norm_num,
    Nat.testBit_two_pow_sub_one]
  by_cases hj8 : j < 8
  · by_cases hjr : 8 - r ≤ j
    · simp [hj8, hjr]
      omega
    · simp [hj8, hjr]
  · simp [hj8]

/-- Masked equality under the high-bit mask is equality of the top `r` bits. -/
theorem land_mask_eq_iff (x y r : Nat) (_hx : x < 256) (_hy : y < 256)
    (h1 : 1 ≤ r) (h2 : r ≤ 7) :
    (x &&& (0xFF <<< (8 - r)) % 256) = (y &&& (0xFF <<< (8 - r)) % 256) ↔
      ∀ j, j < r → Nat.testBit x (7 - j) = Nat.testBit y (7 - j) := by
  constructor
  · intro h j hj
    have hbit := congrArg (fun t => Nat.testBit t (7 - j)) h
    simp only [Nat.testBit_land, mask_testBit r h1 h2] at hbit
    have hc1 : 8 - r ≤ 7 - j := by omega
    have hc2 : 7 - j < 8 := by omega
    simpa [hc1, hc2] using hbit
  · intro h
    apply Nat.eq_of_testBit_eq
    intro i
    rw [Nat.testBit_land, Nat.testBit_land, mask_testBit r h1 h2]
    by_cases hc : 8 - r ≤ i ∧ i < 8
    · have hji := h (7 - i) (by omega)
      rw [show 7 - (7 - i) = i from by omega] at hji
      rw [hji]
    · have hmask : (decide (8 - r ≤ i) && decide (i < 8)) = false := by
        rcases not_and_or.mp hc with hc1 | hc2
        · simp [hc1]
        · simp [hc2]
      rw [hmask, Bool.and_false, Bool.and_false]

/-- `firstBitsEq` splits into full-byte equality and the residual bits of the
partial byte. -/
theorem firstBitsEq_decompose (L : Nat) (pa a : List Nat) :
    firstBitsEq L pa a ↔
      ((∀ k, k < L / 8 → ∀ j, j < 8 →
          Nat.testBit (pa.getD k 0) (7 - j) = Nat.testBit (a.getD k 0) (7 - j)) ∧
       (∀ j, j < L % 8 →
          Nat.testBit (pa.getD (L / 8) 0) (7 - j) =
            Nat.testBit (a.getD (L / 8) 0) (7 - j))) := by
  constructor
  · intro h
    constructor
    · intro k hk j hj
      have hi := h (8 * k + j) (by omega)
      unfold bitOf at hi
      rwa [show (8 * k + j) / 8 = k from by omega,
        show (8 * k + j) % 8 = j from by omega] at hi
    · intro j hj
      have hi := h (8 * (L / 8) + j) (by omega)
      unfold bitOf at hi
      rwa [show (8 * (L / 8) + j) / 8 = L / 8 from by omega,
        show (8 * (L / 8) + j) % 8 = j from by omega] at hi
  · rintro ⟨hfull, hrem⟩ i hi
    unfold bitOf
    by_cases hk : i / 8 < L / 8
    · exact hfull (i / 8) hk (i % 8) (by omega)
    · have hke : i / 8 = L / 8 := by omega
      rw [hke]
      exact hrem (i % 8) (by omega)

/-- C2: `matches(P, A)` returns true iff the first `prefix_len` bits of `A`
equal the first `prefix_len` bits of `P.address`.  The right-hand side reads
only bits at positions below `prefix_len`, so bits of `P.address` at or
beyond the prefix length never influence the result; `prefix_len = 0` makes
the right-hand side vacuous (matches everything) and `prefix_len = 128` makes
it bitwise equality of all 128 bits. -/
theorem matches_spec (p : Ipv6Prefix) (a : List Nat)
    (hpl : p.address.length = 16) (hal : a.length = 16)
    (hpb : ∀ b ∈ p.address, b < 256) (hab : ∀ b ∈ a, b < 256)
    (hL : p.prefix_len ≤ 128) :
    p.matches a = true ↔ firstBitsEq p.prefix_len p.address a := by
  unfold Ipv6Prefix.matches
  rw [firstBitsEq_decompose]
  simp only [Bool.and_eq_true, List.all_eq_true, List.mem_range, Bool.or_eq_true,
    decide_eq_true_eq]
  rw [show p.prefix_len - p.prefix_len / 8 * 8 = p.prefix_len % 8 from by omega]
  constructor
  · rintro ⟨hfull, hrem⟩
    constructor
    · intro k hk j _hj
      rcases hfull k (by omega) with h | h
      · omega
      · rw [h]
    · by_cases hr0 : p.prefix_len % 8 = 0
      · intro j hj
        omega
      · have hcond : p.prefix_len % 8 > 0 ∧ p.prefix_len / 8 < 16 := by omega
        rw [if_pos hcond, decide_eq_true_eq] at hrem
        exact (land_mask_eq_iff _ _ (p.prefix_len % 8)
          (getD_lt_256 _ hpb _ (by omega)) (getD_lt_256 _ hab _ (by omega))
          (by omega) (by omega)).mp hrem
  · rintro ⟨hfull, hrem⟩
    constructor
    · intro k hk16
      by_cases hk : k < p.prefix_len / 8
      · exact Or.inr ((byte_eq_iff_bits _ _
          (getD_lt_256 _ hab _ (by omega)) (getD_lt_256 _ hpb _ (by omega))).mpr
          (fun j hj => (hfull k hk j hj).symm))
      · exact Or.inl (by omega)
    · by_cases hcond : p.prefix_len % 8 > 0 ∧ p.prefix_len / 8 < 16
      · rw [if_pos hcond, decide_eq_true_eq]
        exact (land_mask_eq_iff _ _ (p.prefix_len % 8)
          (getD_lt_256 _ hpb _ (by omega)) (getD_lt_256 _ hab _ (by omega))
          (by omega) (by omega)).mpr hrem
      · rw [if_neg hcond]

/-- Witness for C2: the /64 prefix `2001:db8::` matches `2001:db8::1`. -/
theorem matches_spec_witness :
    (Ipv6Prefix.mk [0x20, 0x01, 0x0d, 0xb8, 0, 0, 0, 0, 0, 0, 0, 0, 0, 0, 0, 0] 64).matches
        [0x20, 0x01, 0x0d, 0xb8, 0, 0, 0, 0, 0, 0, 0, 0, 0, 0, 0, 1] = true ↔
      firstBitsEq 64 [0x20, 0x01, 0x0d, 0xb8, 0, 0, 0, 0, 0, 0, 0, 0, 0, 0, 0, 0]
        [0x20, 0x01, 0x0d, 0xb8, 0, 0, 0, 0, 0, 0, 0, 0, 0, 0, 0, 1] :=
  matches_spec
    (Ipv6Prefix.mk [0x20, 0x01, 0x0d, 0xb8, 0, 0, 0, 0, 0, 0, 0, 0, 0, 0, 0, 0] 64)
    [0x20, 0x01, 0x0d, 0xb8, 0, 0, 0, 0, 0, 0, 0, 0, 0, 0, 0, 1]
    (by decide) (by decide) (by decide) (by decide) (by decide)

end IpCanvas
